import Mathlib

/-!
# Verification of `src/Native/Runtime/GCMemoryHelpers.cpp`

Shallow embedding of the GC memory helpers of this runtime.  Memory is a
byte-addressed store `Nat → UInt8`.  Every operation is embedded as the
*trace* of primitive memory events it performs, in program order:
individual byte stores, atomic pointer-sized word stores, and write-barrier
notifications.  The final memory state of an operation is the left fold of
its trace over the starting memory, so functional claims, ordering claims
and word-atomicity claims are all statements about the same embedding.

The entry points `RhpInitMultibyte`, `memcpyGCRefs`,
`memcpyGCRefsWithWriteBarrier`, `RhBulkMoveWithWriteBarrier`,
`GCSafeZeroMemory`, `GCSafeCopyMemoryWithWriteBarrier` and
`RhpBulkWriteBarrier` are translated from `GCMemoryHelpers.cpp` (the 64-bit
configuration, `POINTER_SIZE == 8`).  The inline primitives they call
(`InlineGCSafeFillMemory`, `InlineForwardGCSafeCopy`,
`InlineBackwardGCSafeCopy`, `InlinedBulkWriteBarrier`) live in
`GCMemoryHelpers.inl`, which is not part of the sources here; those are
modelled from the spec, and each such definition says so in its doc
comment.
-/

/-- Platform word size in bytes: the 64-bit configuration of the source
(`POINTER_SIZE == 8`). -/
def POINTER_SIZE : Nat := 8

/-- Modulus of the C `UInt32` type, used where the source narrows a length
to `UInt32`. -/
def UInt32_MOD : Nat := 2 ^ 32

/-- Byte-addressed memory. -/
abbrev Mem := Nat → UInt8

/-- Store one byte. -/
def writeByte (m : Mem) (a : Nat) (v : UInt8) : Mem :=
  fun i => if i = a then v else m i

/-- Byte `j` of the word value `pv`, little-endian. -/
def wordByte (pv j : Nat) : UInt8 := UInt8.ofNat (pv / 256 ^ j % 256)

/-- Store one pointer-sized word at address `a`: all `POINTER_SIZE` bytes
change together (one atomic store in the machine). -/
def writeWord (m : Mem) (a pv : Nat) : Mem :=
  fun i => if a ≤ i ∧ i < a + POINTER_SIZE then wordByte pv (i - a) else m i

/-- Read `k` bytes at address `a` as a little-endian number. -/
def readWordAux (m : Mem) (a : Nat) : Nat → Nat
  | 0 => 0
  | k + 1 => (m a).toNat + 256 * readWordAux m (a + 1) k

/-- Read the pointer-sized word at address `a`. -/
def readWord (m : Mem) (a : Nat) : Nat := readWordAux m a POINTER_SIZE

/-- One primitive memory event: a byte store, an atomic word store, or a
write-barrier notification of a byte range. -/
inductive MemEvent : Type
  | storeByte (a : Nat) (v : UInt8)
  | storeWord (a : Nat) (pv : Nat)
  | notify (start len : Nat)
deriving DecidableEq

/-- Effect of one event on memory.  A notification writes nothing. -/
def applyEvent (m : Mem) : MemEvent → Mem
  | .storeByte a v => writeByte m a v
  | .storeWord a pv => writeWord m a pv
  | .notify _ _ => m

/-- Memory after a trace of events runs, in order, from `m`. -/
def run (m : Mem) (evs : List MemEvent) : Mem := evs.foldl applyEvent m

/-- Whether an event is a data store (as opposed to a barrier
notification). -/
def isStore : MemEvent → Bool
  | .notify _ _ => false
  | _ => true

/-- Whether an event writes the byte at address `i`. -/
def writesAddr (e : MemEvent) (i : Nat) : Bool :=
  match e with
  | .storeByte a _ => decide (a = i)
  | .storeWord a _ => decide (a ≤ i ∧ i < a + POINTER_SIZE)
  | .notify _ _ => false

/-- Whether some notification in the trace covers address `i`. -/
def coversAddr (evs : List MemEvent) (i : Nat) : Bool :=
  evs.any fun e =>
    match e with
    | .notify s l => decide (s ≤ i ∧ i < s + l)
    | _ => false

/-- Trace of `n` consecutive byte stores of `v` starting at `a`, ascending. -/
def fillBytesTr (a n : Nat) (v : UInt8) : List MemEvent :=
  match n with
  | 0 => []
  | n + 1 => .storeByte a v :: fillBytesTr (a + 1) n v

/-- Trace of `n` consecutive word stores of `pv` starting at `a`, ascending. -/
def fillWordsTr (a n pv : Nat) : List MemEvent :=
  match n with
  | 0 => []
  | n + 1 => .storeWord a pv :: fillWordsTr (a + POINTER_SIZE) n pv

/-- Modelled from the spec: `InlineGCSafeFillMemory` of `GCMemoryHelpers.inl`
(not among the sources).  Spec §4.2: the range is written in three zones, a
leading partial-word zone byte-by-byte up to the first word boundary (empty
when the start is aligned), a middle zone of whole words each written with a
single word-sized store, and a trailing partial-word zone byte-by-byte.  The
byte-wise zones store the low byte of the fill word. -/
def InlineGCSafeFillMemoryTr (mem size pv : Nat) : List MemEvent :=
  let lead := min ((POINTER_SIZE - mem % POINTER_SIZE) % POINTER_SIZE) size
  let body := (size - lead) / POINTER_SIZE
  let tail := (size - lead) % POINTER_SIZE
  fillBytesTr mem lead (wordByte pv 0) ++
    fillWordsTr (mem + lead) body pv ++
    fillBytesTr (mem + lead + POINTER_SIZE * body) tail (wordByte pv 0)

/-- Trace of a byte-by-byte copy of `n` bytes from `s` to `d`, ascending
addresses; each store reads the memory as already modified by the stores
before it, which is what makes the direction matter under overlap. -/
def copyBytesFwdTr (m : Mem) (d s n : Nat) : List MemEvent :=
  match n with
  | 0 => []
  | n + 1 =>
    .storeByte d (m s) :: copyBytesFwdTr (writeByte m d (m s)) (d + 1) (s + 1) n

/-- Trace of a word-by-word copy of `k` words from `s` to `d`, ascending. -/
def copyWordsFwdTr (m : Mem) (d s k : Nat) : List MemEvent :=
  match k with
  | 0 => []
  | k + 1 =>
    .storeWord d (readWord m s) ::
      copyWordsFwdTr (writeWord m d (readWord m s))
        (d + POINTER_SIZE) (s + POINTER_SIZE) k

/-- Trace of a byte-by-byte copy of `n` bytes from `s` to `d`, descending
addresses (highest byte first). -/
def copyBytesBwdTr (m : Mem) (d s n : Nat) : List MemEvent :=
  match n with
  | 0 => []
  | n + 1 =>
    .storeByte (d + n) (m (s + n)) ::
      copyBytesBwdTr (writeByte m (d + n) (m (s + n))) d s n

/-- Trace of a word-by-word copy of `k` words from `s` to `d`, descending
(highest word first). -/
def copyWordsBwdTr (m : Mem) (d s k : Nat) : List MemEvent :=
  match k with
  | 0 => []
  | k + 1 =>
    .storeWord (d + POINTER_SIZE * k) (readWord m (s + POINTER_SIZE * k)) ::
      copyWordsBwdTr
        (writeWord m (d + POINTER_SIZE * k) (readWord m (s + POINTER_SIZE * k)))
        d s k

/-- Modelled from the spec: `InlineForwardGCSafeCopy` of
`GCMemoryHelpers.inl` (not among the sources).  Spec §4.3: copies low
addresses to high, one word at a time when destination, source and length
are all word-aligned (the reference-bearing case), falling back to
byte-wise forward copy otherwise. -/
def InlineForwardGCSafeCopyTr (m : Mem) (d s len : Nat) : List MemEvent :=
  if d % POINTER_SIZE = 0 ∧ s % POINTER_SIZE = 0 ∧ len % POINTER_SIZE = 0 then
    copyWordsFwdTr m d s (len / POINTER_SIZE)
  else
    copyBytesFwdTr m d s len

/-- Modelled from the spec: `InlineBackwardGCSafeCopy` of
`GCMemoryHelpers.inl` (not among the sources).  Spec §4.4: identical
word-granular copy but iterating from the highest address down. -/
def InlineBackwardGCSafeCopyTr (m : Mem) (d s len : Nat) : List MemEvent :=
  if d % POINTER_SIZE = 0 ∧ s % POINTER_SIZE = 0 ∧ len % POINTER_SIZE = 0 then
    copyWordsBwdTr m d s (len / POINTER_SIZE)
  else
    copyBytesBwdTr m d s len

/-- Modelled from the spec: `InlinedBulkWriteBarrier` of
`GCMemoryHelpers.inl` (not among the sources).  Spec §4.5: a black-box
notification to the collector's remembered set covering the whole
destination range. -/
def InlinedBulkWriteBarrierTr (start len : Nat) : List MemEvent :=
  [.notify start len]

/-- Fill byte of `RhpInitMultibyte`: the source truncates the `int` argument
`c` with `(UInt8)c`. -/
def initFillByte (c : Int) : Nat := (c % 256).toNat

/-- Word pattern built by `RhpInitMultibyte` from the fill byte `bv`: the
byte replicated into all eight byte lanes by shifts and ors when `bv` is
nonzero, and zero (skipping the replication arithmetic) when `bv` is zero,
as in the source. -/
def replicateByte (bv : Nat) : Nat :=
  if bv ≠ 0 then
    bv <<< (7 * 8) ||| bv <<< (6 * 8) ||| bv <<< (5 * 8) ||| bv <<< (4 * 8) |||
      bv <<< (3 * 8) ||| bv <<< (2 * 8) ||| bv <<< (1 * 8) ||| bv
  else 0

/-- Fill word of `RhpInitMultibyte`: `(UInt8)c` replicated. -/
def initFillPattern (c : Int) : Nat := replicateByte (initFillByte c)

/-- Trace of `RhpInitMultibyte(mem, c, size)`: build the replicated fill
word from `(UInt8)c`, then `InlineGCSafeFillMemory(mem, size, pv)`. -/
def RhpInitMultibyteTr (mem : Nat) (c : Int) (size : Nat) : List MemEvent :=
  InlineGCSafeFillMemoryTr mem size (initFillPattern c)

/-- `RhpInitMultibyte`: final memory and the returned pointer (the source
returns `mem`, the destination buffer). -/
def RhpInitMultibyte (m : Mem) (mem : Nat) (c : Int) (size : Nat) :
    Mem × Nat :=
  (run m (RhpInitMultibyteTr mem c size), mem)

/-- Pass/fail of the debug `ASSERT`s of `RhpInitMultibyte`: the source
asserts `mem != nullptr`. -/
def RhpInitMultibyteAssertsPass (mem : Nat) : Bool := decide (mem ≠ 0)

/-- Trace of `memcpyGCRefs(dest, src, len)`: a forward GC-safe copy and
nothing else. -/
def memcpyGCRefsTr (m : Mem) (dest src len : Nat) : List MemEvent :=
  InlineForwardGCSafeCopyTr m dest src len

/-- `memcpyGCRefs`: final memory and the returned pointer (the source
returns `dest`). -/
def memcpyGCRefs (m : Mem) (dest src len : Nat) : Mem × Nat :=
  (run m (memcpyGCRefsTr m dest src len), dest)

/-- Pass/fail of the debug `ASSERT`s of `memcpyGCRefs`: the source asserts
`dest != nullptr` and `src != nullptr`. -/
def memcpyGCRefsAssertsPass (dest src : Nat) : Bool :=
  decide (dest ≠ 0) && decide (src ≠ 0)

/-- Trace of `memcpyGCRefsWithWriteBarrier(dest, src, len)`: a forward
GC-safe copy, then `InlinedBulkWriteBarrier(dest, (UInt32)len)` — the source
narrows the `size_t` length to `UInt32` at the barrier call. -/
def memcpyGCRefsWithWriteBarrierTr (m : Mem) (dest src len : Nat) :
    List MemEvent :=
  InlineForwardGCSafeCopyTr m dest src len ++
    InlinedBulkWriteBarrierTr dest (len % UInt32_MOD)

/-- `memcpyGCRefsWithWriteBarrier`: final memory and the returned pointer
(the source returns `dest`). -/
def memcpyGCRefsWithWriteBarrier (m : Mem) (dest src len : Nat) :
    Mem × Nat :=
  (run m (memcpyGCRefsWithWriteBarrierTr m dest src len), dest)

/-- Pass/fail of the debug `ASSERT`s of `memcpyGCRefsWithWriteBarrier`: the
source asserts `dest != nullptr` and `src != nullptr`. -/
def memcpyGCRefsWithWriteBarrierAssertsPass (dest src : Nat) : Bool :=
  decide (dest ≠ 0) && decide (src ≠ 0)

/-- Trace of `RhBulkMoveWithWriteBarrier(pDest, pSrc, cbDest)`: forward copy
when `pDest <= pSrc || pSrc + cbDest <= pDest`, backward copy otherwise,
then `InlinedBulkWriteBarrier(pDest, cbDest)` (the `int` length converts to
the barrier's `UInt32` parameter).  The length is modelled as a natural
number, the nonnegative values of the C `int`. -/
def RhBulkMoveWithWriteBarrierTr (m : Mem) (pDest pSrc cbDest : Nat) :
    List MemEvent :=
  (if pDest ≤ pSrc ∨ pSrc + cbDest ≤ pDest then
    InlineForwardGCSafeCopyTr m pDest pSrc cbDest
  else
    InlineBackwardGCSafeCopyTr m pDest pSrc cbDest) ++
    InlinedBulkWriteBarrierTr pDest (cbDest % UInt32_MOD)

/-- `RhBulkMoveWithWriteBarrier`: final memory (the source returns void). -/
def RhBulkMoveWithWriteBarrier (m : Mem) (pDest pSrc cbDest : Nat) : Mem :=
  run m (RhBulkMoveWithWriteBarrierTr m pDest pSrc cbDest)

/-- Pass/fail of the debug `ASSERT`s of `RhBulkMoveWithWriteBarrier`: the
source body contains no `ASSERT`, so every call passes. -/
def RhBulkMoveWithWriteBarrierAssertsPass (_pDest _pSrc : Nat) : Bool := true

/-- Trace of `GCSafeZeroMemory(dest, len)`: fill with word pattern `0`. -/
def GCSafeZeroMemoryTr (dest len : Nat) : List MemEvent :=
  InlineGCSafeFillMemoryTr dest len 0

/-- Trace of `GCSafeCopyMemoryWithWriteBarrier(dest, src, len)`: a forward
GC-safe copy, then `InlinedBulkWriteBarrier(dest, (UInt32)len)`. -/
def GCSafeCopyMemoryWithWriteBarrierTr (m : Mem) (dest src len : Nat) :
    List MemEvent :=
  InlineForwardGCSafeCopyTr m dest src len ++
    InlinedBulkWriteBarrierTr dest (len % UInt32_MOD)

/-- Trace of `RhpBulkWriteBarrier(pMemStart, cbMemSize)`: the standalone
barrier entry point. -/
def RhpBulkWriteBarrierTr (pMemStart cbMemSize : Nat) : List MemEvent :=
  InlinedBulkWriteBarrierTr pMemStart cbMemSize

/-- Reference semantics of an overlapping move, written from the spec's
words for the comparison in the move-correctness claim: read all of `src`
into a temporary buffer first, then write it to `dest`; equivalently, byte
`i` of the destination range ends up holding the byte the source range held
at the same offset before the call. -/
def memmoveSpec (m : Mem) (d s n : Nat) : Mem :=
  fun i => if d ≤ i ∧ i < d + n then m (s + (i - d)) else m i

/-! ## Basic facts about traces and memory -/

theorem POINTER_SIZE_eq : POINTER_SIZE = 8 := rfl

theorem run_nil (m : Mem) : run m [] = m := rfl

theorem run_cons (m : Mem) (e : MemEvent) (t : List MemEvent) :
    run m (e :: t) = run (applyEvent m e) t := rfl

theorem run_append (m : Mem) (t1 t2 : List MemEvent) :
    run m (t1 ++ t2) = run (run m t1) t2 := by
  simp [run, List.foldl_append]

theorem run_notify (m : Mem) (a l : Nat) :
    run m [MemEvent.notify a l] = m := rfl

/-- Running a fill-bytes trace sets the bytes of the range and nothing
else. -/
theorem run_fillBytesTr (n : Nat) : ∀ (m : Mem) (a : Nat) (v : UInt8),
    run m (fillBytesTr a n v) =
      fun i => if a ≤ i ∧ i < a + n then v else m i := by
  induction n with
  | zero =>
    intro m a v
    funext i
    rw [fillBytesTr, run_nil, if_neg (by omega)]
  | succ n ih =>
    intro m a v
    funext i
    rw [fillBytesTr, run_cons]
    simp only [applyEvent, ih, writeByte]
    by_cases h1 : a + 1 ≤ i ∧ i < a + 1 + n
    · rw [if_pos h1, if_pos (by omega)]
    · rw [if_neg h1]
      by_cases h2 : i = a
      · rw [if_pos h2, if_pos (by omega)]
      · rw [if_neg h2, if_neg (by omega)]

/-- Running a fill-words trace whose word pattern has all bytes equal to
`v` sets the bytes of the range to `v` and nothing else. -/
theorem run_fillWordsTr (n : Nat) : ∀ (m : Mem) (a pv : Nat) (v : UInt8),
    (∀ j, j < POINTER_SIZE → wordByte pv j = v) →
    run m (fillWordsTr a n pv) =
      fun i => if a ≤ i ∧ i < a + POINTER_SIZE * n then v else m i := by
  induction n with
  | zero =>
    intro m a pv v _
    funext i
    rw [fillWordsTr, run_nil, if_neg (by simp only [POINTER_SIZE]; omega)]
  | succ n ih =>
    intro m a pv v h
    funext i
    rw [fillWordsTr, run_cons]
    simp only [applyEvent, ih _ _ _ _ h, writeWord]
    simp only [POINTER_SIZE] at *
    by_cases h1 : a + 8 ≤ i ∧ i < a + 8 + 8 * n
    · rw [if_pos h1, if_pos (by omega)]
    · rw [if_neg h1]
      by_cases h2 : a ≤ i ∧ i < a + 8
      · rw [if_pos h2, h _ (by omega), if_pos (by omega)]
      · rw [if_neg h2, if_neg (by omega)]

/-- Running the modelled `InlineGCSafeFillMemory` with a word pattern all
of whose bytes are `v` sets every byte of the range to `v` and nothing
else. -/
theorem run_InlineGCSafeFillMemoryTr (m : Mem) (a size pv : Nat) (v : UInt8)
    (h : ∀ j, j < POINTER_SIZE → wordByte pv j = v) :
    run m (InlineGCSafeFillMemoryTr a size pv) =
      fun i => if a ≤ i ∧ i < a + size then v else m i := by
  have h0 : wordByte pv 0 = v := h 0 (by simp only [POINTER_SIZE]; omega)
  rw [InlineGCSafeFillMemoryTr]
  simp only [run_append, run_fillBytesTr, run_fillWordsTr _ _ _ _ _ h, h0]
  funext i
  simp only [POINTER_SIZE] at *
  have hlead : min ((8 - a % 8) % 8) size ≤ size := Nat.min_le_right _ _
  have hdm : 8 * ((size - min ((8 - a % 8) % 8) size) / 8) +
      (size - min ((8 - a % 8) % 8) size) % 8 =
      size - min ((8 - a % 8) % 8) size := Nat.div_add_mod _ 8
  by_cases hi : a ≤ i ∧ i < a + size
  · rw [if_pos hi]
    by_cases c1 : a + min ((8 - a % 8) % 8) size + 8 * ((size - min ((8 - a % 8) % 8) size) / 8) ≤ i ∧
        i < a + min ((8 - a % 8) % 8) size + 8 * ((size - min ((8 - a % 8) % 8) size) / 8) +
          (size - min ((8 - a % 8) % 8) size) % 8
    · rw [if_pos c1]
    · rw [if_neg c1]
      by_cases c2 : a + min ((8 - a % 8) % 8) size ≤ i ∧
          i < a + min ((8 - a % 8) % 8) size + 8 * ((size - min ((8 - a % 8) % 8) size) / 8)
      · rw [if_pos c2]
      · rw [if_neg c2, if_pos (by omega)]
  · rw [if_neg hi, if_neg (by omega), if_neg (by omega), if_neg (by omega)]

/-! ## UInt8 conversion helpers -/

theorem UInt8_toNat_ofNat (n : Nat) : (UInt8.ofNat n).toNat = n % 256 := rfl

theorem UInt8_ofNat_toNat (x : UInt8) : UInt8.ofNat x.toNat = x :=
  UInt8.ext (by rw [UInt8_toNat_ofNat, Nat.mod_eq_of_lt (UInt8.toNat_lt x)])

/-! ## Reading a word back byte by byte -/

theorem readWordAux_byte (j : Nat) : ∀ (k : Nat) (m : Mem) (a : Nat), j < k →
    readWordAux m a k / 256 ^ j % 256 = (m (a + j)).toNat := by
  induction j with
  | zero =>
    intro k m a hk
    match k, hk with
    | k + 1, _ =>
      have hx : (m a).toNat < 256 := UInt8.toNat_lt _
      rw [readWordAux, Nat.pow_zero, Nat.div_one, Nat.add_mul_mod_self_left,
        Nat.mod_eq_of_lt hx, Nat.add_zero]
  | succ j ih =>
    intro k m a hk
    match k, hk with
    | k + 1, hk =>
      have hx : (m a).toNat < 256 := UInt8.toNat_lt _
      have h1 : 256 ^ (j + 1) = 256 * 256 ^ j := by ring
      rw [readWordAux, h1, ← Nat.div_div_eq_div_mul,
        Nat.add_mul_div_left _ _ (by omega : (0:Nat) < 256),
        Nat.div_eq_of_lt hx, Nat.zero_add, ih k m (a + 1) (by omega),
        show a + 1 + j = a + (j + 1) from by omega]

/-- Byte `j` of the word read at `s` is the byte at `s + j`. -/
theorem wordByte_readWord (m : Mem) (s j : Nat) (hj : j < POINTER_SIZE) :
    wordByte (readWord m s) j = m (s + j) := by
  rw [wordByte, readWord,
    readWordAux_byte j POINTER_SIZE m s hj, UInt8_ofNat_toNat]

/-- Evaluating a word store whose value was read from memory `m` at `s`:
inside the stored word the bytes come from `m` at the matching offset. -/
theorem writeWord_readWord_eval (m mw : Mem) (a s i : Nat) :
    writeWord mw a (readWord m s) i =
      if a ≤ i ∧ i < a + POINTER_SIZE then m (s + (i - a)) else mw i := by
  rw [writeWord]
  by_cases h : a ≤ i ∧ i < a + POINTER_SIZE
  · rw [if_pos h, if_pos h,
      wordByte_readWord m s (i - a) (by simp only [POINTER_SIZE] at *; omega)]
  · rw [if_neg h, if_neg h]

/-! ## Directional copies compute the reference move semantics -/

/-- Byte-wise ascending copy equals the reference move semantics whenever
the destination does not cut into the unread tail of the source
(`d ≤ s`, or disjoint ranges). -/
theorem run_copyBytesFwdTr (n : Nat) : ∀ (m : Mem) (d s : Nat),
    (d ≤ s ∨ s + n ≤ d) →
    run m (copyBytesFwdTr m d s n) = memmoveSpec m d s n := by
  induction n with
  | zero =>
    intro m d s _
    funext i
    simp only [copyBytesFwdTr, run_nil, memmoveSpec]
    rw [if_neg (by omega)]
  | succ n ih =>
    intro m d s hsep
    rw [copyBytesFwdTr, run_cons]
    simp only [applyEvent]
    rw [ih (writeByte m d (m s)) (d + 1) (s + 1) (by omega)]
    funext i
    simp only [memmoveSpec, writeByte]
    split_ifs <;> first | rfl | (exfalso; omega) | (congr 1; omega)

/-- Word-wise ascending copy equals the reference move semantics whenever
the destination does not cut into the unread tail of the source. -/
theorem run_copyWordsFwdTr (k : Nat) : ∀ (m : Mem) (d s : Nat),
    (d ≤ s ∨ s + POINTER_SIZE * k ≤ d) →
    run m (copyWordsFwdTr m d s k) = memmoveSpec m d s (POINTER_SIZE * k) := by
  induction k with
  | zero =>
    intro m d s _
    funext i
    simp only [copyWordsFwdTr, run_nil, memmoveSpec, POINTER_SIZE]
    rw [if_neg (by omega)]
  | succ k ih =>
    intro m d s hsep
    rw [copyWordsFwdTr, run_cons]
    simp only [applyEvent]
    rw [ih (writeWord m d (readWord m s)) (d + POINTER_SIZE) (s + POINTER_SIZE)
      (by simp only [POINTER_SIZE] at *; omega)]
    funext i
    simp only [POINTER_SIZE] at hsep
    simp only [memmoveSpec, writeWord_readWord_eval, POINTER_SIZE]
    split_ifs <;> first | rfl | (exfalso; omega) | (congr 1; omega)

/-- Byte-wise descending copy equals the reference move semantics whenever
the destination does not cut into the unread head of the source
(`s ≤ d`, or disjoint ranges). -/
theorem run_copyBytesBwdTr (n : Nat) : ∀ (m : Mem) (d s : Nat),
    (s ≤ d ∨ d + n ≤ s) →
    run m (copyBytesBwdTr m d s n) = memmoveSpec m d s n := by
  induction n with
  | zero =>
    intro m d s _
    funext i
    simp only [copyBytesBwdTr, run_nil, memmoveSpec]
    rw [if_neg (by omega)]
  | succ n ih =>
    intro m d s hsep
    rw [copyBytesBwdTr, run_cons]
    simp only [applyEvent]
    rw [ih (writeByte m (d + n) (m (s + n))) d s (by omega)]
    funext i
    simp only [memmoveSpec, writeByte]
    split_ifs <;> first | rfl | (exfalso; omega) | (congr 1; omega)

/-- Word-wise descending copy equals the reference move semantics whenever
the destination does not cut into the unread head of the source. -/
theorem run_copyWordsBwdTr (k : Nat) : ∀ (m : Mem) (d s : Nat),
    (s ≤ d ∨ d + POINTER_SIZE * k ≤ s) →
    run m (copyWordsBwdTr m d s k) = memmoveSpec m d s (POINTER_SIZE * k) := by
  induction k with
  | zero =>
    intro m d s _
    funext i
    simp only [copyWordsBwdTr, run_nil, memmoveSpec, POINTER_SIZE]
    rw [if_neg (by omega)]
  | succ k ih =>
    intro m d s hsep
    rw [copyWordsBwdTr, run_cons]
    simp only [applyEvent]
    rw [ih (writeWord m (d + POINTER_SIZE * k) (readWord m (s + POINTER_SIZE * k)))
      d s (by simp only [POINTER_SIZE] at *; omega)]
    funext i
    simp only [POINTER_SIZE] at hsep
    simp only [memmoveSpec, writeWord_readWord_eval, POINTER_SIZE]
    split_ifs <;> first | rfl | (exfalso; omega) | (congr 1; omega)

/-- The modelled forward copy equals the reference move semantics whenever
`d ≤ s` or the ranges are disjoint. -/
theorem run_InlineForwardGCSafeCopyTr (m : Mem) (d s len : Nat)
    (h : d ≤ s ∨ s + len ≤ d) :
    run m (InlineForwardGCSafeCopyTr m d s len) = memmoveSpec m d s len := by
  rw [InlineForwardGCSafeCopyTr]
  by_cases ha : d % POINTER_SIZE = 0 ∧ s % POINTER_SIZE = 0 ∧
      len % POINTER_SIZE = 0
  · rw [if_pos ha]
    have hd : POINTER_SIZE * (len / POINTER_SIZE) = len :=
      Nat.mul_div_cancel' (Nat.dvd_of_mod_eq_zero ha.2.2)
    rw [run_copyWordsFwdTr (len / POINTER_SIZE) m d s (by rw [hd]; exact h), hd]
  · rw [if_neg ha]
    exact run_copyBytesFwdTr len m d s h

/-- The modelled backward copy equals the reference move semantics whenever
`s ≤ d` or the ranges are disjoint. -/
theorem run_InlineBackwardGCSafeCopyTr (m : Mem) (d s len : Nat)
    (h : s ≤ d ∨ d + len ≤ s) :
    run m (InlineBackwardGCSafeCopyTr m d s len) = memmoveSpec m d s len := by
  rw [InlineBackwardGCSafeCopyTr]
  by_cases ha : d % POINTER_SIZE = 0 ∧ s % POINTER_SIZE = 0 ∧
      len % POINTER_SIZE = 0
  · rw [if_pos ha]
    have hd : POINTER_SIZE * (len / POINTER_SIZE) = len :=
      Nat.mul_div_cancel' (Nat.dvd_of_mod_eq_zero ha.2.2)
    rw [run_copyWordsBwdTr (len / POINTER_SIZE) m d s (by rw [hd]; exact h), hd]
  · rw [if_neg ha]
    exact run_copyBytesBwdTr len m d s h

/-- The bulk move produces exactly the reference move semantics: the
direction test makes the chosen primitive safe in every placement. -/
theorem move_eq_memmoveSpec (m : Mem) (d s n : Nat) :
    RhBulkMoveWithWriteBarrier m d s n = memmoveSpec m d s n := by
  rw [RhBulkMoveWithWriteBarrier, RhBulkMoveWithWriteBarrierTr, run_append]
  by_cases c : d ≤ s ∨ s + n ≤ d
  · rw [if_pos c, InlinedBulkWriteBarrierTr, run_notify,
      run_InlineForwardGCSafeCopyTr m d s n c]
  · rw [if_neg c, InlinedBulkWriteBarrierTr, run_notify,
      run_InlineBackwardGCSafeCopyTr m d s n (Or.inl (by omega))]

/-- C1: for every destination, source and length, including every
overlapping placement (destination below the source, above it, or the
identical range) and every length, `RhBulkMoveWithWriteBarrier` leaves the
destination range holding exactly the bytes the source range held before
the call — it equals the reference semantics of reading all of the source
into a temporary buffer and then writing it to the destination. -/
theorem C1_move_matches_reference (m : Mem) (pDest pSrc cbDest : Nat) :
    RhBulkMoveWithWriteBarrier m pDest pSrc cbDest =
      memmoveSpec m pDest pSrc cbDest :=
  move_eq_memmoveSpec m pDest pSrc cbDest

/-- C2: for every destination, source and length, the move dispatcher
selects the backward copy primitive exactly when
`pSrc < pDest < pSrc + cbDest`, and otherwise (destination at or below the
source, or disjoint ranges) selects the forward copy primitive. -/
theorem C2_dispatcher_direction (m : Mem) (pDest pSrc cbDest : Nat) :
    RhBulkMoveWithWriteBarrierTr m pDest pSrc cbDest =
      (if pSrc < pDest ∧ pDest < pSrc + cbDest then
        InlineBackwardGCSafeCopyTr m pDest pSrc cbDest
      else
        InlineForwardGCSafeCopyTr m pDest pSrc cbDest) ++
        InlinedBulkWriteBarrierTr pDest (cbDest % UInt32_MOD) := by
  rw [RhBulkMoveWithWriteBarrierTr]
  by_cases c : pDest ≤ pSrc ∨ pSrc + cbDest ≤ pDest
  · rw [if_pos c, if_neg (by omega)]
  · rw [if_neg c, if_pos (by omega)]

/-! ## The replicated fill pattern, byte by byte -/

set_option maxRecDepth 4096 in
/-- Exhaustive check over all 256 fill bytes: every byte lane of the
replicated word holds the fill byte. -/
theorem replicateByte_byte_all :
    ((List.range 256).all fun bv => (List.range 8).all fun j =>
      decide (wordByte (replicateByte bv) j = UInt8.ofNat bv)) = true := by
  decide

theorem replicateByte_byte (bv : Nat) (hbv : bv < 256) (j : Nat)
    (hj : j < 8) : wordByte (replicateByte bv) j = UInt8.ofNat bv := by
  have h := replicateByte_byte_all
  rw [List.all_eq_true] at h
  have h2 := h bv (List.mem_range.mpr hbv)
  rw [List.all_eq_true] at h2
  exact of_decide_eq_true (h2 j (List.mem_range.mpr hj))

theorem initFillByte_lt (c : Int) : initFillByte c < 256 := by
  rw [initFillByte]
  have h1 : 0 ≤ c % 256 := Int.emod_nonneg c (by norm_num)
  have h2 : c % 256 < 256 := Int.emod_lt_of_pos c (by norm_num)
  omega

/-- Every byte lane of the fill word of `RhpInitMultibyte` holds the
truncated fill byte `(UInt8)c`. -/
theorem initFillPattern_byte (c : Int) (j : Nat) (hj : j < POINTER_SIZE) :
    wordByte (initFillPattern c) j = UInt8.ofNat (initFillByte c) := by
  rw [initFillPattern]
  exact replicateByte_byte _ (initFillByte_lt c) j
    (by simp only [POINTER_SIZE] at hj; exact hj)

/-- Running the trace of `RhpInitMultibyte` sets every byte of the range to
the truncated fill byte and nothing else. -/
theorem run_RhpInitMultibyteTr (m : Mem) (a : Nat) (c : Int) (size : Nat) :
    run m (RhpInitMultibyteTr a c size) =
      fun i => if a ≤ i ∧ i < a + size then UInt8.ofNat (initFillByte c)
        else m i := by
  rw [RhpInitMultibyteTr]
  exact run_InlineGCSafeFillMemoryTr m a size _ _
    (fun j hj => initFillPattern_byte c j hj)

/-- C6: for every non-null range, of any length and any alignment, and
every fill argument, `RhpInitMultibyte` leaves every byte of the range
equal to the truncated fill byte `(UInt8)c` and returns the original range
start pointer. -/
theorem C6_fill_correct (m : Mem) (mem : Nat) (c : Int) (size : Nat)
    (_hmem : mem ≠ 0) :
    (RhpInitMultibyte m mem c size).2 = mem ∧
    ∀ i, mem ≤ i → i < mem + size →
      (RhpInitMultibyte m mem c size).1 i = UInt8.ofNat (initFillByte c) := by
  refine ⟨rfl, fun i h1 h2 => ?_⟩
  show run m (RhpInitMultibyteTr mem c size) i = _
  rw [run_RhpInitMultibyteTr]
  show (if mem ≤ i ∧ i < mem + size then UInt8.ofNat (initFillByte c)
    else m i) = _
  rw [if_pos ⟨h1, h2⟩]

theorem C6_fill_correct_witness :
    (3 : Nat) ≠ 0 ∧
    (RhpInitMultibyte (fun _ => 0) 3 (7 : Int) 20).2 = 3 ∧
    (RhpInitMultibyte (fun _ => 0) 3 (7 : Int) 20).1 12 =
      UInt8.ofNat (initFillByte 7) :=
  ⟨by decide,
    (C6_fill_correct (fun _ => 0) 3 7 20 (by decide)).1,
    (C6_fill_correct (fun _ => 0) 3 7 20 (by decide)).2 12 (by decide)
      (by decide)⟩

/-- C10: `RhpInitMultibyte` depends only on the low 8 bits of its `int`
fill argument: filling with `c` produces the same memory and return value
as filling with `c mod 256`, every byte lane of the replicated word pattern
it builds equals `(UInt8)c`, and a zero fill byte yields the all-zeros word
without the replication arithmetic. -/
theorem C10_fill_low_bits (m : Mem) (mem : Nat) (c : Int) (size : Nat) :
    RhpInitMultibyte m mem c size = RhpInitMultibyte m mem (c % 256) size ∧
    (∀ j, j < POINTER_SIZE →
      wordByte (initFillPattern c) j = UInt8.ofNat (initFillByte c)) ∧
    (initFillByte c = 0 → initFillPattern c = 0) := by
  have hb : initFillByte (c % 256) = initFillByte c := by
    rw [initFillByte, initFillByte, Int.emod_emod_of_dvd c (dvd_refl 256)]
  refine ⟨?_, fun j hj => initFillPattern_byte c j hj, fun h => ?_⟩
  · rw [RhpInitMultibyte, RhpInitMultibyte, RhpInitMultibyteTr,
      RhpInitMultibyteTr, initFillPattern, initFillPattern, hb]
  · rw [initFillPattern, h, replicateByte]
    simp

theorem C10_fill_low_bits_witness :
    RhpInitMultibyte (fun _ => 0) 0 (512 : Int) 16 =
      RhpInitMultibyte (fun _ => 0) 0 ((512 : Int) % 256) 16 ∧
    wordByte (initFillPattern 512) 3 = UInt8.ofNat (initFillByte 512) ∧
    initFillPattern 512 = 0 :=
  ⟨(C10_fill_low_bits (fun _ => 0) 0 512 16).1,
    (C10_fill_low_bits (fun _ => 0) 0 512 16).2.1 3 (by decide),
    (C10_fill_low_bits (fun _ => 0) 0 512 16).2.2 (by decide)⟩

/-! ## Copy traces contain only data stores -/

theorem isStore_copyBytesFwdTr (n : Nat) : ∀ (m : Mem) (d s : Nat),
    ∀ e ∈ copyBytesFwdTr m d s n, isStore e = true := by
  induction n with
  | zero => intro m d s e he; simp [copyBytesFwdTr] at he
  | succ n ih =>
    intro m d s e he
    rw [copyBytesFwdTr] at he
    rcases List.mem_cons.mp he with h | h
    · subst h; rfl
    · exact ih _ _ _ e h

theorem isStore_copyWordsFwdTr (k : Nat) : ∀ (m : Mem) (d s : Nat),
    ∀ e ∈ copyWordsFwdTr m d s k, isStore e = true := by
  induction k with
  | zero => intro m d s e he; simp [copyWordsFwdTr] at he
  | succ k ih =>
    intro m d s e he
    rw [copyWordsFwdTr] at he
    rcases List.mem_cons.mp he with h | h
    · subst h; rfl
    · exact ih _ _ _ e h

theorem isStore_copyBytesBwdTr (n : Nat) : ∀ (m : Mem) (d s : Nat),
    ∀ e ∈ copyBytesBwdTr m d s n, isStore e = true := by
  induction n with
  | zero => intro m d s e he; simp [copyBytesBwdTr] at he
  | succ n ih =>
    intro m d s e he
    rw [copyBytesBwdTr] at he
    rcases List.mem_cons.mp he with h | h
    · subst h; rfl
    · exact ih _ _ _ e h

theorem isStore_copyWordsBwdTr (k : Nat) : ∀ (m : Mem) (d s : Nat),
    ∀ e ∈ copyWordsBwdTr m d s k, isStore e = true := by
  induction k with
  | zero => intro m d s e he; simp [copyWordsBwdTr] at he
  | succ k ih =>
    intro m d s e he
    rw [copyWordsBwdTr] at he
    rcases List.mem_cons.mp he with h | h
    · subst h; rfl
    · exact ih _ _ _ e h

theorem isStore_InlineForwardGCSafeCopyTr (m : Mem) (d s len : Nat) :
    ∀ e ∈ InlineForwardGCSafeCopyTr m d s len, isStore e = true := by
  intro e he
  rw [InlineForwardGCSafeCopyTr] at he
  by_cases h : d % POINTER_SIZE = 0 ∧ s % POINTER_SIZE = 0 ∧
      len % POINTER_SIZE = 0
  · rw [if_pos h] at he
    exact isStore_copyWordsFwdTr _ _ _ _ e he
  · rw [if_neg h] at he
    exact isStore_copyBytesFwdTr _ _ _ _ e he

theorem isStore_InlineBackwardGCSafeCopyTr (m : Mem) (d s len : Nat) :
    ∀ e ∈ InlineBackwardGCSafeCopyTr m d s len, isStore e = true := by
  intro e he
  rw [InlineBackwardGCSafeCopyTr] at he
  by_cases h : d % POINTER_SIZE = 0 ∧ s % POINTER_SIZE = 0 ∧
      len % POINTER_SIZE = 0
  · rw [if_pos h] at he
    exact isStore_copyWordsBwdTr _ _ _ _ e he
  · rw [if_neg h] at he
    exact isStore_copyBytesBwdTr _ _ _ _ e he

/-! ## Coverage of barrier notifications -/

theorem coversAddr_append (t1 t2 : List MemEvent) (i : Nat) :
    coversAddr (t1 ++ t2) i = (coversAddr t1 i || coversAddr t2 i) := by
  simp [coversAddr, List.any_append]

theorem coversAddr_false_of_stores (t : List MemEvent) (i : Nat)
    (h : ∀ e ∈ t, isStore e = true) : coversAddr t i = false := by
  rw [coversAddr, List.any_eq_false]
  intro e he
  have hs := h e he
  cases e with
  | storeByte a v => simp
  | storeWord a pv => simp
  | notify a l => simp [isStore] at hs

theorem coversAddr_single_notify (a l i : Nat) :
    coversAddr [MemEvent.notify a l] i = decide (a ≤ i ∧ i < a + l) := by
  simp [coversAddr]

/-! ## Final memory of the copy entry points -/

theorem memcpyGCRefs_mem (m : Mem) (d s n : Nat)
    (hf : d ≤ s ∨ s + n ≤ d) :
    (memcpyGCRefs m d s n).1 = memmoveSpec m d s n :=
  run_InlineForwardGCSafeCopyTr m d s n hf

theorem memcpyGCRefsWithWriteBarrier_mem (m : Mem) (d s n : Nat)
    (hf : d ≤ s ∨ s + n ≤ d) :
    (memcpyGCRefsWithWriteBarrier m d s n).1 = memmoveSpec m d s n := by
  show run m (memcpyGCRefsWithWriteBarrierTr m d s n) = _
  rw [memcpyGCRefsWithWriteBarrierTr, run_append, InlinedBulkWriteBarrierTr,
    run_notify]
  exact run_InlineForwardGCSafeCopyTr m d s n hf

theorem RhpInitMultibyte_mem (m : Mem) (mem : Nat) (c : Int) (size : Nat) :
    (RhpInitMultibyte m mem c size).1 =
      fun i => if mem ≤ i ∧ i < mem + size then UInt8.ofNat (initFillByte c)
        else m i :=
  run_RhpInitMultibyteTr m mem c size

/-- The reference move semantics is idempotent when the two ranges are
identical or disjoint (under partial overlap it is not). -/
theorem memmoveSpec_idem (m : Mem) (d s n : Nat)
    (h : d = s ∨ d + n ≤ s ∨ s + n ≤ d) :
    memmoveSpec (memmoveSpec m d s n) d s n = memmoveSpec m d s n := by
  funext i
  simp only [memmoveSpec]
  split_ifs <;> first | rfl | (exfalso; omega) | (congr 1; omega)

/-- C7: for every destination, source and length,
`memcpyGCRefsWithWriteBarrier` is exactly the composition of `memcpyGCRefs`
followed by the standalone bulk write barrier on the destination range: the
same trace (an unconditional forward copy — no overlap decision — then the
notification), the same final memory and same returned pointer as the two
separate calls, and it returns `dest`. -/
theorem C7_copy_with_barrier_is_composition (m : Mem) (dest src len : Nat) :
    memcpyGCRefsWithWriteBarrierTr m dest src len =
      memcpyGCRefsTr m dest src len ++
        RhpBulkWriteBarrierTr dest (len % UInt32_MOD) ∧
    (memcpyGCRefsWithWriteBarrier m dest src len).1 =
      (memcpyGCRefs m dest src len).1 ∧
    (memcpyGCRefsWithWriteBarrier m dest src len).2 =
      (memcpyGCRefs m dest src len).2 ∧
    (memcpyGCRefsWithWriteBarrier m dest src len).2 = dest := by
  refine ⟨rfl, ?_, rfl, rfl⟩
  show run m (memcpyGCRefsWithWriteBarrierTr m dest src len) =
    run m (memcpyGCRefsTr m dest src len)
  rw [memcpyGCRefsWithWriteBarrierTr, run_append, InlinedBulkWriteBarrierTr,
    run_notify]
  rfl

/-- C5: in every call to `RhBulkMoveWithWriteBarrier` (every destination,
source and `int`-representable length, whichever copy direction is
chosen), the write-barrier notification on the destination range is
present and is the last event of the trace, ordered after every data store
of the preceding copy. -/
theorem C5_barrier_unconditional_and_last (m : Mem)
    (pDest pSrc cbDest : Nat) (h : cbDest < UInt32_MOD) :
    ∃ t, RhBulkMoveWithWriteBarrierTr m pDest pSrc cbDest =
        t ++ [MemEvent.notify pDest cbDest] ∧
      ∀ e ∈ t, isStore e = true := by
  refine ⟨if pDest ≤ pSrc ∨ pSrc + cbDest ≤ pDest then
      InlineForwardGCSafeCopyTr m pDest pSrc cbDest
    else InlineBackwardGCSafeCopyTr m pDest pSrc cbDest, ?_, ?_⟩
  · rw [RhBulkMoveWithWriteBarrierTr, InlinedBulkWriteBarrierTr,
      Nat.mod_eq_of_lt h]
  · intro e he
    by_cases c : pDest ≤ pSrc ∨ pSrc + cbDest ≤ pDest
    · rw [if_pos c] at he
      exact isStore_InlineForwardGCSafeCopyTr _ _ _ _ e he
    · rw [if_neg c] at he
      exact isStore_InlineBackwardGCSafeCopyTr _ _ _ _ e he

theorem C5_barrier_unconditional_and_last_witness :
    (2 : Nat) < UInt32_MOD ∧
    ∃ t, RhBulkMoveWithWriteBarrierTr (fun _ => 0) 0 8 2 =
        t ++ [MemEvent.notify 0 2] ∧ ∀ e ∈ t, isStore e = true :=
  ⟨by decide,
    C5_barrier_unconditional_and_last (fun _ => 0) 0 8 2 (by decide)⟩

/-- C9 fails as stated: `RhBulkMoveWithWriteBarrier` is an entry point of
this layer, yet its body contains no assertion at all — called with a null
destination and source its debug assertion condition still passes, so no
debug build aborts. -/
theorem C9_counterexample :
    RhBulkMoveWithWriteBarrierAssertsPass 0 0 = true := rfl

/-- C9 (amended): `RhpInitMultibyte` asserts on a null buffer, and
`memcpyGCRefs` and `memcpyGCRefsWithWriteBarrier` assert on a null
destination or source, in debug builds (their `ASSERT` conditions fail on
null); `RhBulkMoveWithWriteBarrier` performs no null check; release builds
are unchecked and have no recovery path. -/
theorem C9_null_asserts (mem dest src : Nat) :
    (mem = 0 → RhpInitMultibyteAssertsPass mem = false) ∧
    (dest = 0 ∨ src = 0 → memcpyGCRefsAssertsPass dest src = false) ∧
    (dest = 0 ∨ src = 0 →
      memcpyGCRefsWithWriteBarrierAssertsPass dest src = false) ∧
    RhBulkMoveWithWriteBarrierAssertsPass dest src = true := by
  refine ⟨fun h => ?_, fun h => ?_, fun h => ?_, rfl⟩
  · subst h; rfl
  · rw [memcpyGCRefsAssertsPass]
    rcases h with h | h <;> subst h <;> simp
  · rw [memcpyGCRefsWithWriteBarrierAssertsPass]
    rcases h with h | h <;> subst h <;> simp

theorem C9_null_asserts_witness :
    RhpInitMultibyteAssertsPass 0 = false ∧
    memcpyGCRefsAssertsPass 0 5 = false ∧
    memcpyGCRefsWithWriteBarrierAssertsPass 7 0 = false ∧
    RhBulkMoveWithWriteBarrierAssertsPass 0 5 = true :=
  ⟨(C9_null_asserts 0 0 5).1 rfl,
    (C9_null_asserts 0 0 5).2.1 (Or.inl rfl),
    (C9_null_asserts 0 7 0).2.2.1 (Or.inr rfl),
    (C9_null_asserts 0 0 5).2.2.2⟩

/-- C3 fails as stated: at `len = 2^32` (representable in the 64-bit
`size_t`) the barrier call of `memcpyGCRefsWithWriteBarrier` narrows the
length with `(UInt32)len`, which truncates to `0`, so the notification
covers no address of the destination range at all — here address `0` of
the range `[0, 2^32)` is left uncovered. -/
theorem C3_counterexample :
    ¬ ∀ i, 0 ≤ i → i < 0 + 2 ^ 32 →
      coversAddr (memcpyGCRefsWithWriteBarrierTr (fun _ => 0) 0 (2 ^ 32)
        (2 ^ 32)) i = true := by
  intro h
  have h0 := h 0 (by omega) (by omega)
  have hf : coversAddr (memcpyGCRefsWithWriteBarrierTr (fun _ => 0) 0
      (2 ^ 32) (2 ^ 32)) 0 = false := by
    rw [memcpyGCRefsWithWriteBarrierTr, coversAddr_append,
      coversAddr_false_of_stores _ _
        (isStore_InlineForwardGCSafeCopyTr _ _ _ _),
      InlinedBulkWriteBarrierTr, show (2:Nat) ^ 32 % UInt32_MOD = 0 from
        by rw [UInt32_MOD]; exact Nat.mod_self _,
      coversAddr_single_notify]
    simp
  rw [h0] at hf
  simp at hf

/-- C3 (amended): for every barriered operation
(`memcpyGCRefsWithWriteBarrier`, `GCSafeCopyMemoryWithWriteBarrier`,
`RhBulkMoveWithWriteBarrier`) whose length is below `2^32`, the
write-barrier notification covers every addressable unit of the
destination range with no gaps; for a `size_t` length of `2^32` or more
the notified length is only the length modulo `2^32`, because the source
narrows it to `UInt32` at the barrier call. -/
theorem C3_barrier_coverage (m : Mem) (dest src len i : Nat)
    (hlen : len < UInt32_MOD) (h1 : dest ≤ i) (h2 : i < dest + len) :
    coversAddr (memcpyGCRefsWithWriteBarrierTr m dest src len) i = true ∧
    coversAddr (GCSafeCopyMemoryWithWriteBarrierTr m dest src len) i = true ∧
    coversAddr (RhBulkMoveWithWriteBarrierTr m dest src len) i = true := by
  have hn : coversAddr (InlinedBulkWriteBarrierTr dest (len % UInt32_MOD))
      i = true := by
    rw [InlinedBulkWriteBarrierTr, Nat.mod_eq_of_lt hlen,
      coversAddr_single_notify]
    simp only [decide_eq_true_eq]
    exact ⟨h1, h2⟩
  refine ⟨?_, ?_, ?_⟩
  · rw [memcpyGCRefsWithWriteBarrierTr, coversAddr_append, hn,
      Bool.or_true]
  · rw [GCSafeCopyMemoryWithWriteBarrierTr, coversAddr_append, hn,
      Bool.or_true]
  · rw [RhBulkMoveWithWriteBarrierTr, coversAddr_append, hn, Bool.or_true]

theorem C3_barrier_coverage_witness :
    (8 : Nat) < UInt32_MOD ∧ (0 : Nat) ≤ 3 ∧ (3 : Nat) < 0 + 8 ∧
    (coversAddr (memcpyGCRefsWithWriteBarrierTr (fun _ => 0) 0 16 8) 3 =
        true ∧
      coversAddr (GCSafeCopyMemoryWithWriteBarrierTr (fun _ => 0) 0 16 8) 3 =
        true ∧
      coversAddr (RhBulkMoveWithWriteBarrierTr (fun _ => 0) 0 16 8) 3 =
        true) :=
  ⟨by decide, by decide, by decide,
    C3_barrier_coverage (fun _ => 0) 0 16 8 3 (by decide) (by decide)
      (by decide)⟩

/-- C8 fails as stated: `memcpyGCRefs` called twice with identical
arguments does not always produce the memory of a single call.  With
destination `0`, source `1`, length `2` (a partial overlap) the byte at
address `0` is `1` after one call but `2` after two. -/
theorem C8_counterexample :
    (memcpyGCRefs
        (memcpyGCRefs (fun i => UInt8.ofNat i) 0 1 2).1 0 1 2).1 0 ≠
      (memcpyGCRefs (fun i => UInt8.ofNat i) 0 1 2).1 0 := by
  decide

/-- C8 (amended): every operation called with length 0 performs no memory
writes (the fill and plain copies have the empty trace, the barriered
operations only the notification); fill is idempotent for all arguments;
the copies and the move are idempotent whenever the destination and source
ranges are identical or disjoint — under partial overlap a second
identical call can change memory further. -/
theorem C8_zero_length_and_idempotence (m : Mem) (mem : Nat) (c : Int)
    (size d s n : Nat) (h : d = s ∨ d + n ≤ s ∨ s + n ≤ d) :
    RhpInitMultibyteTr mem c 0 = [] ∧
    memcpyGCRefsTr m d s 0 = [] ∧
    InlineBackwardGCSafeCopyTr m d s 0 = [] ∧
    memcpyGCRefsWithWriteBarrierTr m d s 0 = [MemEvent.notify d 0] ∧
    RhBulkMoveWithWriteBarrierTr m d s 0 = [MemEvent.notify d 0] ∧
    (RhpInitMultibyte (RhpInitMultibyte m mem c size).1 mem c size).1 =
      (RhpInitMultibyte m mem c size).1 ∧
    (memcpyGCRefs (memcpyGCRefs m d s n).1 d s n).1 =
      (memcpyGCRefs m d s n).1 ∧
    run (run m (InlineBackwardGCSafeCopyTr m d s n))
        (InlineBackwardGCSafeCopyTr
          (run m (InlineBackwardGCSafeCopyTr m d s n)) d s n) =
      run m (InlineBackwardGCSafeCopyTr m d s n) ∧
    RhBulkMoveWithWriteBarrier (RhBulkMoveWithWriteBarrier m d s n) d s n =
      RhBulkMoveWithWriteBarrier m d s n ∧
    (memcpyGCRefsWithWriteBarrier
        (memcpyGCRefsWithWriteBarrier m d s n).1 d s n).1 =
      (memcpyGCRefsWithWriteBarrier m d s n).1 := by
  have hf : d ≤ s ∨ s + n ≤ d := by omega
  have hb : s ≤ d ∨ d + n ≤ s := by omega
  refine ⟨?_, ?_, ?_, ?_, ?_, ?_, ?_, ?_, ?_, ?_⟩
  · simp [RhpInitMultibyteTr, InlineGCSafeFillMemoryTr, fillBytesTr,
      fillWordsTr]
  · rw [memcpyGCRefsTr, InlineForwardGCSafeCopyTr]
    split_ifs <;> simp [copyWordsFwdTr, copyBytesFwdTr]
  · rw [InlineBackwardGCSafeCopyTr]
    split_ifs <;> simp [copyWordsBwdTr, copyBytesBwdTr]
  · rw [memcpyGCRefsWithWriteBarrierTr, InlineForwardGCSafeCopyTr]
    split_ifs <;>
      simp [copyWordsFwdTr, copyBytesFwdTr, InlinedBulkWriteBarrierTr,
        UInt32_MOD]
  · rw [RhBulkMoveWithWriteBarrierTr, InlineForwardGCSafeCopyTr,
      InlineBackwardGCSafeCopyTr]
    split_ifs <;>
      simp [copyWordsFwdTr, copyBytesFwdTr, copyWordsBwdTr,
        copyBytesBwdTr, InlinedBulkWriteBarrierTr, UInt32_MOD]
  · simp only [RhpInitMultibyte_mem]
    funext i
    split_ifs <;> rfl
  · rw [memcpyGCRefs_mem ((memcpyGCRefs m d s n).1) d s n hf,
      memcpyGCRefs_mem m d s n hf]
    exact memmoveSpec_idem m d s n h
  · rw [run_InlineBackwardGCSafeCopyTr
        (run m (InlineBackwardGCSafeCopyTr m d s n)) d s n hb,
      run_InlineBackwardGCSafeCopyTr m d s n hb]
    exact memmoveSpec_idem m d s n h
  · rw [move_eq_memmoveSpec (RhBulkMoveWithWriteBarrier m d s n) d s n,
      move_eq_memmoveSpec m d s n]
    exact memmoveSpec_idem m d s n h
  · rw [memcpyGCRefsWithWriteBarrier_mem
        ((memcpyGCRefsWithWriteBarrier m d s n).1) d s n hf,
      memcpyGCRefsWithWriteBarrier_mem m d s n hf]
    exact memmoveSpec_idem m d s n h

theorem C8_zero_length_and_idempotence_witness :
    memcpyGCRefsTr (fun _ => 0) 0 16 0 = [] ∧
    RhBulkMoveWithWriteBarrierTr (fun _ => 0) 0 16 0 =
      [MemEvent.notify 0 0] ∧
    RhBulkMoveWithWriteBarrier
        (RhBulkMoveWithWriteBarrier (fun _ => 0) 0 16 8) 0 16 8 =
      RhBulkMoveWithWriteBarrier (fun _ => 0) 0 16 8 :=
  ⟨(C8_zero_length_and_idempotence (fun _ => 0) 3 7 5 0 16 8
      (by decide)).2.1,
    (C8_zero_length_and_idempotence (fun _ => 0) 3 7 5 0 16 8
      (by decide)).2.2.2.2.1,
    (C8_zero_length_and_idempotence (fun _ => 0) 3 7 5 0 16 8
      (by decide)).2.2.2.2.2.2.2.2.1⟩

/-! ## Word atomicity: traces that are sequences of ascending word stores -/

/-- A trace consisting of word-sized stores at consecutive ascending word
slots starting at `d`.  The aligned middle zones of the fill and the
aligned copies produce such traces, so each destination word is written by
exactly one atomic word store. -/
inductive WordSeqFrom : Nat → List MemEvent → Prop
  | nil (d : Nat) : WordSeqFrom d []
  | cons (d pv : Nat) (t : List MemEvent) :
      WordSeqFrom (d + POINTER_SIZE) t →
      WordSeqFrom d (MemEvent.storeWord d pv :: t)

theorem wsf_fillWordsTr (n : Nat) : ∀ (a pv : Nat),
    WordSeqFrom a (fillWordsTr a n pv) := by
  induction n with
  | zero => intro a pv; rw [fillWordsTr]; exact WordSeqFrom.nil a
  | succ n ih =>
    intro a pv
    rw [fillWordsTr]
    exact WordSeqFrom.cons a pv _ (ih (a + POINTER_SIZE) pv)

theorem wsf_copyWordsFwdTr (k : Nat) : ∀ (m : Mem) (d s : Nat),
    WordSeqFrom d (copyWordsFwdTr m d s k) := by
  induction k with
  | zero => intro m d s; rw [copyWordsFwdTr]; exact WordSeqFrom.nil d
  | succ k ih =>
    intro m d s
    rw [copyWordsFwdTr]
    exact WordSeqFrom.cons d _ _ (ih _ (d + POINTER_SIZE) (s + POINTER_SIZE))

/-- A word-sequence trace starting at `d` leaves every byte below `d`
untouched. -/
theorem wsf_run_low (d : Nat) (t : List MemEvent) (hw : WordSeqFrom d t) :
    ∀ (m : Mem) (i : Nat), i < d → run m t i = m i := by
  induction hw with
  | nil d => intro m i _; rfl
  | cons d pv t ht ih =>
    intro m i hi
    rw [run_cons]
    simp only [applyEvent]
    rw [ih (writeWord m d pv) i (by omega), writeWord, if_neg (by omega)]

/-- An initial segment of a word-sequence trace is a word-sequence trace. -/
theorem wsf_take (t1 : List MemEvent) : ∀ (d : Nat) (t t2 : List MemEvent),
    WordSeqFrom d t → t = t1 ++ t2 → WordSeqFrom d t1 := by
  induction t1 with
  | nil => intro d t t2 _ _; exact WordSeqFrom.nil d
  | cons e t1' ih =>
    intro d t t2 hw heq
    subst heq
    cases hw with
    | cons d pv t' ht' =>
      exact WordSeqFrom.cons d pv t1' (ih (d + POINTER_SIZE) _ t2 ht' rfl)

/-- Reading a word only depends on the bytes of the word. -/
theorem readWordAux_congr (k : Nat) : ∀ (m1 m2 : Mem) (a : Nat),
    (∀ u, u < k → m1 (a + u) = m2 (a + u)) →
    readWordAux m1 a k = readWordAux m2 a k := by
  induction k with
  | zero => intro m1 m2 a _; rfl
  | succ k ih =>
    intro m1 m2 a h
    have h0 : m1 a = m2 a := by
      have := h 0 (by omega)
      rwa [Nat.add_zero] at this
    rw [readWordAux, readWordAux, h0,
      ih m1 m2 (a + 1) (fun u hu => by
        have := h (u + 1) (by omega)
        rwa [show a + (u + 1) = a + 1 + u from by omega] at this)]

theorem readWord_congr (m1 m2 : Mem) (a : Nat)
    (h : ∀ u, u < POINTER_SIZE → m1 (a + u) = m2 (a + u)) :
    readWord m1 a = readWord m2 a :=
  readWordAux_congr POINTER_SIZE m1 m2 a h

/-- Sampling a destination word at any cut of a word-sequence trace yields
either the fully-old or the fully-new word value, never a mixture: the
word is written by a single atomic store. -/
theorem wsf_sample (d : Nat) (t : List MemEvent) (hw : WordSeqFrom d t) :
    ∀ (m : Mem) (t1 t2 : List MemEvent), t = t1 ++ t2 → ∀ j,
      readWord (run m t1) (d + POINTER_SIZE * j) =
          readWord m (d + POINTER_SIZE * j) ∨
      readWord (run m t1) (d + POINTER_SIZE * j) =
          readWord (run m t) (d + POINTER_SIZE * j) := by
  induction hw with
  | nil d =>
    intro m t1 t2 heq j
    have h1 : t1 = [] := (List.append_eq_nil.mp heq.symm).1
    subst h1
    left
    rfl
  | cons d pv t ht ih =>
    intro m t1 t2 heq j
    cases t1 with
    | nil => left; rfl
    | cons e t1' =>
      injection heq with he ht2
      subst he
      cases j with
      | zero =>
        right
        rw [Nat.mul_zero, Nat.add_zero, run_cons, run_cons]
        simp only [applyEvent]
        have h1 : WordSeqFrom (d + POINTER_SIZE) t1' :=
          wsf_take t1' (d + POINTER_SIZE) t t2 ht ht2
        have e1 : readWord (run (writeWord m d pv) t1') d =
            readWord (writeWord m d pv) d :=
          readWord_congr _ _ _ (fun u hu =>
            wsf_run_low (d + POINTER_SIZE) t1' h1 _ _ (by omega))
        have e2 : readWord (run (writeWord m d pv) t) d =
            readWord (writeWord m d pv) d :=
          readWord_congr _ _ _ (fun u hu =>
            wsf_run_low (d + POINTER_SIZE) t ht _ _ (by omega))
        rw [e1, e2]
      | succ j' =>
        rw [show d + POINTER_SIZE * (j' + 1) =
          d + POINTER_SIZE + POINTER_SIZE * j' from by ring, run_cons,
          run_cons]
        simp only [applyEvent]
        rcases ih (writeWord m d pv) t1' t2 ht2 j' with hL | hR
        · left
          rw [hL]
          exact readWord_congr _ _ _ (fun u hu => by
            rw [writeWord, if_neg (by omega)])
        · right
          rw [hR]

/-- No event of a word-sequence trace writes a byte below its base. -/
theorem wsf_writesAddr_low (d : Nat) (t : List MemEvent)
    (hw : WordSeqFrom d t) : ∀ i, i < d → ∀ e ∈ t, writesAddr e i = false := by
  induction hw with
  | nil d => intro i hi e he; simp at he
  | cons d pv t ht ih =>
    intro i hi e he
    rcases List.mem_cons.mp he with h | h
    · subst h
      simp only [writesAddr, decide_eq_false_iff_not]
      omega
    · exact ih i (by omega) e h

/-- Every byte of the destination range of a word-sequence trace is
written by exactly one (word-sized) store event. -/
theorem wsf_count (d : Nat) (t : List MemEvent) (hw : WordSeqFrom d t) :
    ∀ i, d ≤ i → i < d + POINTER_SIZE * t.length →
      (t.filter (fun e => writesAddr e i)).length = 1 := by
  induction hw with
  | nil d =>
    intro i h1 h2
    rw [List.length_nil, Nat.mul_zero, Nat.add_zero] at h2
    omega
  | cons d pv t ht ih =>
    intro i h1 h2
    have h2' : i < d + POINTER_SIZE + POINTER_SIZE * t.length := by
      rw [show d + POINTER_SIZE + POINTER_SIZE * t.length =
        d + POINTER_SIZE * (t.length + 1) from by ring]
      rw [List.length_cons] at h2
      exact h2
    rw [List.filter_cons]
    by_cases hc : i < d + POINTER_SIZE
    · rw [if_pos (by simp only [writesAddr, decide_eq_true_eq]; omega)]
      rw [List.length_cons, List.filter_eq_nil_iff.mpr (fun e he => by
        rw [wsf_writesAddr_low (d + POINTER_SIZE) t ht i hc e he]
        simp)]
      rfl
    · rw [if_neg (by simp only [writesAddr, decide_eq_true_eq]; omega)]
      exact ih i (by omega) h2'

theorem length_copyWordsFwdTr (k : Nat) : ∀ (m : Mem) (d s : Nat),
    (copyWordsFwdTr m d s k).length = k := by
  induction k with
  | zero => intro m d s; rfl
  | succ k ih =>
    intro m d s
    rw [copyWordsFwdTr, List.length_cons, ih]

theorem length_fillWordsTr (n : Nat) : ∀ (a pv : Nat),
    (fillWordsTr a n pv).length = n := by
  induction n with
  | zero => intro a pv; rfl
  | succ n ih =>
    intro a pv
    rw [fillWordsTr, List.length_cons, ih]

/-- On an aligned call the trace of `memcpyGCRefs` is exactly the ascending
word-store sequence. -/
theorem memcpyGCRefsTr_aligned (m : Mem) (d s len : Nat)
    (hd : d % POINTER_SIZE = 0) (hs : s % POINTER_SIZE = 0)
    (hl : len % POINTER_SIZE = 0) :
    memcpyGCRefsTr m d s len = copyWordsFwdTr m d s (len / POINTER_SIZE) := by
  rw [memcpyGCRefsTr, InlineForwardGCSafeCopyTr, if_pos ⟨hd, hs, hl⟩]

/-- On an aligned range the trace of `RhpInitMultibyte` is exactly the
ascending word-store sequence: both byte zones are empty. -/
theorem RhpInitMultibyteTr_aligned (mem : Nat) (c : Int) (size : Nat)
    (hmem : mem % POINTER_SIZE = 0) (hsize : size % POINTER_SIZE = 0) :
    RhpInitMultibyteTr mem c size =
      fillWordsTr mem (size / POINTER_SIZE) (initFillPattern c) := by
  have h1 : (POINTER_SIZE - mem % POINTER_SIZE) % POINTER_SIZE = 0 := by
    rw [hmem]
    rfl
  simp only [RhpInitMultibyteTr, InlineGCSafeFillMemoryTr]
  rw [h1]
  simp [fillBytesTr, hsize]

/-- C4: word atomicity.  For the cited word-granular operations on
word-aligned ranges — `memcpyGCRefs` with aligned destination, source and
length, and `RhpInitMultibyte` on an aligned range — and for every cut of
the operation's trace into a completed prefix and a remainder (every
moment at which a concurrent reader could sample), every destination word
reads as either the fully-old or the fully-new word value, never a
byte-level mixture; moreover each byte of the destination range is written
by exactly one word-sized store event. -/
theorem C4_word_atomicity (m : Mem) (d s len mem : Nat) (c : Int)
    (size : Nat) (hd : d % POINTER_SIZE = 0) (hs : s % POINTER_SIZE = 0)
    (hl : len % POINTER_SIZE = 0) (hmem : mem % POINTER_SIZE = 0)
    (hsize : size % POINTER_SIZE = 0) :
    (∀ t1 t2, memcpyGCRefsTr m d s len = t1 ++ t2 → ∀ j,
      readWord (run m t1) (d + POINTER_SIZE * j) =
          readWord m (d + POINTER_SIZE * j) ∨
      readWord (run m t1) (d + POINTER_SIZE * j) =
          readWord (run m (memcpyGCRefsTr m d s len))
            (d + POINTER_SIZE * j)) ∧
    (∀ i, d ≤ i → i < d + len →
      ((memcpyGCRefsTr m d s len).filter
        (fun e => writesAddr e i)).length = 1) ∧
    (∀ t1 t2, RhpInitMultibyteTr mem c size = t1 ++ t2 → ∀ j,
      readWord (run m t1) (mem + POINTER_SIZE * j) =
          readWord m (mem + POINTER_SIZE * j) ∨
      readWord (run m t1) (mem + POINTER_SIZE * j) =
          readWord (run m (RhpInitMultibyteTr mem c size))
            (mem + POINTER_SIZE * j)) ∧
    (∀ i, mem ≤ i → i < mem + size →
      ((RhpInitMultibyteTr mem c size).filter
        (fun e => writesAddr e i)).length = 1) := by
  have htr1 := memcpyGCRefsTr_aligned m d s len hd hs hl
  have htr2 := RhpInitMultibyteTr_aligned mem c size hmem hsize
  have hw1 := wsf_copyWordsFwdTr (len / POINTER_SIZE) m d s
  have hw2 := wsf_fillWordsTr (size / POINTER_SIZE) mem (initFillPattern c)
  have hlen1 : POINTER_SIZE * (len / POINTER_SIZE) = len :=
    Nat.mul_div_cancel' (Nat.dvd_of_mod_eq_zero hl)
  have hlen2 : POINTER_SIZE * (size / POINTER_SIZE) = size :=
    Nat.mul_div_cancel' (Nat.dvd_of_mod_eq_zero hsize)
  refine ⟨?_, ?_, ?_, ?_⟩
  · simp only [htr1]
    exact fun t1 t2 heq j => wsf_sample d _ hw1 m t1 t2 heq j
  · intro i h1 h2
    rw [htr1]
    apply wsf_count d _ hw1 i h1
    rw [length_copyWordsFwdTr, hlen1]
    exact h2
  · simp only [htr2]
    exact fun t1 t2 heq j => wsf_sample mem _ hw2 m t1 t2 heq j
  · intro i h1 h2
    rw [htr2]
    apply wsf_count mem _ hw2 i h1
    rw [length_fillWordsTr, hlen2]
    exact h2

theorem C4_word_atomicity_witness :
    (readWord (run (fun _ => 0) ([] : List MemEvent)) (0 + POINTER_SIZE * 0) =
        readWord (fun _ => 0) (0 + POINTER_SIZE * 0) ∨
      readWord (run (fun _ => 0) ([] : List MemEvent)) (0 + POINTER_SIZE * 0) =
        readWord (run (fun _ => 0) (memcpyGCRefsTr (fun _ => 0) 0 16 8))
          (0 + POINTER_SIZE * 0)) ∧
    ((memcpyGCRefsTr (fun _ => 0) 0 16 8).filter
        (fun e => writesAddr e 3)).length = 1 ∧
    ((RhpInitMultibyteTr 8 7 8).filter
        (fun e => writesAddr e 11)).length = 1 :=
  ⟨(C4_word_atomicity (fun _ => 0) 0 16 8 8 7 8 (by decide) (by decide)
      (by decide) (by decide) (by decide)).1 []
      (memcpyGCRefsTr (fun _ => 0) 0 16 8) rfl 0,
    (C4_word_atomicity (fun _ => 0) 0 16 8 8 7 8 (by decide) (by decide)
      (by decide) (by decide) (by decide)).2.1 3 (by decide) (by decide),
    (C4_word_atomicity (fun _ => 0) 0 16 8 8 7 8 (by decide) (by decide)
      (by decide) (by decide) (by decide)).2.2.2 11 (by decide) (by decide)⟩
